import Mathlib

/-!
Verification of the HTTP header syntax engine in `src/http_parser/http_util.cc`
(namespace `bvc`, class `HttpUtil`).  Strings are embedded as `List Char`;
`gurl_base::StringPiece` values are represented either by the list of their
characters or, where the code calls `.data()` (which extends the piece to the
end of the underlying NUL-terminated buffer), by explicit suffixes of the
original buffer.
-/

namespace HttpParserProof

/-- `HTTP_LWS` is the string " \t"; `HttpUtil::IsLWS` (http_util.cc:418)
checks membership of a character in it. -/
def isLWS (c : Char) : Bool := c == ' ' || c == '\t'

/-- `TrimLWSImplementation` (http_util.cc:25): strip leading and trailing
HTTP linear whitespace from a piece. -/
def trimLWS (l : List Char) : List Char :=
  ((l.dropWhile isLWS).reverse.dropWhile isLWS).reverse

/-- ASCII lower-casing of one character, as `gurl_base::ToLowerASCII` does. -/
def toLowerC (c : Char) : Char :=
  if 65 ≤ c.toNat ∧ c.toNat ≤ 90 then Char.ofNat (c.toNat + 32) else c

/-- `gurl_base::LowerCaseEqualsASCII(piece, target)`: the piece lower-cased
equals the (already lower-case) target. -/
def lowerEq (l target : List Char) : Bool :=
  l.map toLowerC == target

/-- `HttpUtil::IsTokenChar` (http_util.cc:434): not a control character, DEL,
space, or one of the RFC 7230 separators. -/
def isTokenChar (c : Char) : Bool :=
  !(c.toNat ≥ 0x7F || c.toNat ≤ 0x20 || c == '(' || c == ')' || c == '<' ||
    c == '>' || c == '@' || c == ',' || c == ';' || c == ':' ||
    c == '\\' || c == '"' || c == '/' || c == '[' || c == ']' ||
    c == '?' || c == '=' || c == '{' || c == '}')

/-- `HttpUtil::IsToken` (http_util.cc:441): non-empty and all token chars. -/
def isToken (l : List Char) : Bool :=
  !l.isEmpty && l.all isTokenChar

/-- `IsQuote` (http_util.cc:461): only the double quote counts. -/
def isQuoteC (c : Char) : Bool := c == '"'

/-- The escape-resolving scan inside `UnquoteImpl` (http_util.cc:477-491),
over the string with the outer quotes already stripped.  The `Bool` argument
is `prev_escape`.  In strict mode the scan fails (`none`) on an unescaped
interior quote or when the scan ends with `prev_escape` set (terminal quote
was escaped); in lenient mode it never fails. -/
def unquoteScan (strict : Bool) : List Char → Bool → Option (List Char)
  | [], esc => if strict && esc then none else some []
  | c :: cs, esc =>
    if c = '\\' ∧ ¬esc then unquoteScan strict cs true
    else if strict ∧ ¬esc ∧ isQuoteC c then none
    else (unquoteScan strict cs false).map (fun r => c :: r)

/-- `UnquoteImpl` (http_util.cc:464): fails on an empty string, a string not
starting with a quote, or size < 2 / mismatched first and last characters;
otherwise strips the outer quotes and runs the escape-resolving scan. -/
def unquoteImpl (strict : Bool) (s : List Char) : Option (List Char) :=
  if s.isEmpty then none
  else if s.headD ' ' ≠ '"' then none
  else if s.length < 2 then none
  else if s.getLastD ' ' ≠ '"' then none
  else unquoteScan strict ((s.drop 1).dropLast) false

/-- `HttpUtil::Unquote` (http_util.cc:497): lenient decode with identity
fallback — if `UnquoteImpl` fails, the input is returned unchanged. -/
def unquote (s : List Char) : List Char :=
  (unquoteImpl false s).getD s

/-- `HttpUtil::StrictUnquote` (http_util.cc:504). -/
def strictUnquote (s : List Char) : Option (List Char) :=
  unquoteImpl true s

/-- The escaping loop of `HttpUtil::Quote` (http_util.cc:514-518): prefix
every `"` or `\` with a backslash. -/
def escapeQ : List Char → List Char
  | [] => []
  | c :: cs => if c = '"' ∨ c = '\\' then '\\' :: c :: escapeQ cs else c :: escapeQ cs

/-- `HttpUtil::Quote` (http_util.cc:508): escape and surround with quotes. -/
def quote (s : List Char) : List Char :=
  '"' :: (escapeQ s ++ ['"'])

/-- Spec-side predicate (from the claim's words): the inner part of a quoted
string "contains an unescaped interior quote". -/
def hasUnescapedInteriorQuote : List Char → Bool → Bool
  | [], _ => false
  | c :: cs, esc =>
    if c = '\\' ∧ ¬esc then hasUnescapedInteriorQuote cs true
    else if ¬esc ∧ isQuoteC c then true
    else hasUnescapedInteriorQuote cs false

/-- Spec-side predicate (from the claim's words): the inner part of a quoted
string "ends on an unresolved backslash escape". -/
def endsInOpenEscape : List Char → Bool → Bool
  | [], esc => esc
  | c :: cs, esc =>
    if c = '\\' ∧ ¬esc then endsInOpenEscape cs true
    else endsInOpenEscape cs false

/-- Spec-side failure condition for `StrictUnquote`, phrased from the claim:
input "is empty, does not start with a quote, lacks a matching terminal
quote, contains an unescaped interior quote, or ends on an unresolved
backslash escape". -/
def specStrictUnquoteFails (s : List Char) : Bool :=
  s.isEmpty || s.headD ' ' != '"' || decide (s.length < 2) ||
  s.getLastD ' ' != '"' ||
  hasUnescapedInteriorQuote ((s.drop 1).dropLast) false ||
  endsInOpenEscape ((s.drop 1).dropLast) false

/-! ### Tokenizers

`gurl_base::StringTokenizer` / `CStringTokenizer` in their default mode
(`GetNext`) skip delimiter runs and return the maximal non-empty runs of
non-delimiter characters. -/

/-- Worker for the plain (quote-unaware) tokenizer: `cur` is the reversed
current token. -/
def splitDelimsGo (ds : List Char) : List Char → List Char → List (List Char)
  | [], cur => if cur = [] then [] else [cur.reverse]
  | c :: cs, cur =>
    if c ∈ ds then
      if cur = [] then splitDelimsGo ds cs []
      else cur.reverse :: splitDelimsGo ds cs []
    else splitDelimsGo ds cs (c :: cur)

/-- Plain `StringTokenizer` over delimiter set `ds`, default mode (skip empty
tokens). -/
def splitDelims (ds : List Char) (l : List Char) : List (List Char) :=
  splitDelimsGo ds l []

/-- Worker for the quote-aware tokenizer used by `HttpUtil::ValuesIterator`
(`set_quote_chars("\"")`): a delimiter inside a double-quoted span (with
backslash escapes) is inert.  Alongside each raw token it returns the rest of
the input from just after that token to the end (needed to model
`StringPiece::data()`, which extends to the end of the buffer).  `inQ`/`esc`
are the tokenizer's in-quote and in-escape states, `cur` the reversed current
token. -/
def qsplitGo (delim : Char) : List Char → Bool → Bool → List Char →
    List (List Char × List Char)
  | [], _, _, cur => if cur = [] then [] else [(cur.reverse, [])]
  | c :: cs, inQ, esc, cur =>
    if inQ then
      qsplitGo delim cs (!(!esc && c == '"')) (!esc && c == '\\') (c :: cur)
    else if c = delim then
      if cur = [] then qsplitGo delim cs false false []
      else (cur.reverse, c :: cs) :: qsplitGo delim cs false false []
    else qsplitGo delim cs (c == '"') false (c :: cur)

/-- `HttpUtil::ValuesIterator::GetNext` (http_util.cc:799) with
`ignore_empty_values = true`: every raw token is trimmed of LWS and empty
results are skipped.  The second component of each pair is the rest of the
buffer after the trimmed token (the trailing LWS that was trimmed off,
followed by the rest after the raw token). -/
def vTokens (delim : Char) (u : List Char) : List (List Char × List Char) :=
  ((qsplitGo delim u false false []).map
    (fun p => (trimLWS p.1, (p.1.reverse.takeWhile isLWS).reverse ++ p.2))).filter
    (fun p => !p.1.isEmpty)

/-- The trimmed tokens only (used where `.data()` never comes into play). -/
def vTokensPlain (delim : Char) (u : List Char) : List (List Char) :=
  (vTokens delim u).map (fun p => p.1)

/-! ### External integer parsing

`HttpUtil::StringToInt64` (http_util.cc:999) forwards to
`absl::SimpleAtoi(in.data(), out)`.  `absl::SimpleAtoi` is an external
collaborator: per the spec's external-interface contract it accepts a digit
string with optional leading `-` (leading `+` is never accepted), with
surrounding ASCII whitespace ignored, failing on anything else and on
64-bit overflow.  Because the argument is a `const char*`, the parsed text is
the buffer suffix up to the first NUL. -/

/-- C-string truncation at the first NUL byte. -/
def cstr (l : List Char) : List Char := l.takeWhile (fun c => c != '\x00')

/-- ASCII whitespace, as ignored around numbers by the integer parser. -/
def isSpaceA (c : Char) : Bool :=
  c == ' ' || c == '\t' || c == '\n' || c == '\x0b' || c == '\x0c' || c == '\r'

/-- ASCII digit test. -/
def isDigitA (c : Char) : Bool := 48 ≤ c.toNat && c.toNat ≤ 57

/-- Digit-string value. -/
def digitsVal (l : List Char) : Nat :=
  l.foldl (fun a c => a * 10 + (c.toNat - 48)) 0

/-- Model of `absl::SimpleAtoi` for `int64_t` on a NUL-truncated C string. -/
def simpleAtoi64 (l : List Char) : Option Int :=
  let t := ((l.dropWhile isSpaceA).reverse.dropWhile isSpaceA).reverse
  let p : Bool × List Char := match t with
    | '-' :: rest => (true, rest)
    | rest => (false, rest)
  if p.2.isEmpty || !p.2.all isDigitA then none
  else
    let v : Int := if p.1 then -(digitsVal p.2 : Int) else (digitsVal p.2 : Int)
    if v < -(2 ^ 63) ∨ (2 ^ 63) ≤ v then none else some v

/-! ### HttpByteRange

Modelled from the spec: the `HttpByteRange` value type lives outside the
provided sources (only `http_util.cc` is present); §3 of the spec gives
`{first_byte_position: optional int64 ≥ 0, last_byte_position: optional
int64, suffix_length: optional int64}`, valid when either the suffix side or
the first/last side is set, with `first ≤ last` when both are present;
§4.6: the invariant fails when "first>last, or neither side present". -/
structure HttpByteRange where
  first : Option Int := none
  last : Option Int := none
  suffix : Option Int := none
deriving DecidableEq

/-- Modelled from the spec: `HttpByteRange::HasFirstBytePosition`. -/
def HttpByteRange.hasFirst (r : HttpByteRange) : Bool := r.first.isSome

/-- Modelled from the spec: `HttpByteRange::IsValid` — a suffix range, or a
first byte position `≥ 0` with `first ≤ last` whenever a last position is
present; fails when neither side is present. -/
def HttpByteRange.isValid (r : HttpByteRange) : Bool :=
  match r.suffix with
  | some _ => r.first.isNone && r.last.isNone
  | none =>
    match r.first, r.last with
    | some f, some l => decide (0 ≤ f) && decide (f ≤ l)
    | some f, none => decide (0 ≤ f)
    | none, _ => false

/-! ### ParseRangeHeader (http_util.cc:205)

The input is the full `std::string` buffer `s` (NUL-terminated in C++).
Each comma-separated token is handled by `parseOneRange`; the `.data()`
misuse in `StringToInt64` means both number parses read from the start of
the trimmed `first_byte_pos` piece to the end of the buffer. -/

/-- One iteration of the loop body (http_util.cc:223-261), without the final
`IsValid` check: `core` is the trimmed token, `rest` the remainder of the
buffer after it.  Fails (`none`) when the token has no `-`, when a number
parse fails, or when neither side of the range is present. -/
def parseOneRange (core rest : List Char) : Option HttpByteRange :=
  match core.findIdx? (fun c => c == '-') with
  | none => none
  | some m =>
    let firstRaw := core.take m
    let firstT := trimLWS firstRaw
    let dataFirst := cstr ((firstRaw.dropWhile isLWS) ++ core.drop m ++ rest)
    let r1 : Option HttpByteRange :=
      if firstT.isEmpty then some {}
      else match simpleAtoi64 dataFirst with
        | none => none
        | some v => some {first := some v}
    match r1 with
    | none => none
    | some range =>
      let lastT := trimLWS (core.drop (m + 1))
      if !lastT.isEmpty then
        -- http_util.cc:248: the code parses first_byte_pos.data() here.
        match simpleAtoi64 dataFirst with
        | none => none
        | some v =>
          if range.hasFirst then some {range with last := some v}
          else some {range with suffix := some v}
      else if !range.hasFirst then none
      else some range

/-- The `while (byte_range_set_iterator.GetNext())` loop, threading the
caller's vector: a failed token returns false with the vector as appended so
far; at the end the call succeeds iff the vector is non-empty. -/
def rangesLoop : List (List Char × List Char) → List HttpByteRange →
    Bool × List HttpByteRange
  | [], acc => (!acc.isEmpty, acc)
  | t :: ts, acc =>
    match parseOneRange t.1 t.2 with
    | none => (false, acc)
    | some r => if r.isValid then rangesLoop ts (acc ++ [r]) else (false, acc)

/-- `HttpUtil::ParseRangeHeader` (http_util.cc:205): find `=`, check the
trimmed unit is "bytes" case-insensitively, then run the loop over the
quote-aware comma-split of everything after the `=`. -/
def parseRangeHeader (s : List Char) (init : List HttpByteRange) :
    Bool × List HttpByteRange :=
  match s.findIdx? (fun c => c == '=') with
  | none => (false, init)
  | some eq =>
    if lowerEq (trimLWS (s.take eq)) ("bytes".toList) then
      rangesLoop (vTokens ',' (s.drop (eq + 1))) init
    else (false, init)

/-! ### ParseContentRangeHeaderFor206 (http_util.cc:272)

`s` is the full underlying buffer of the `content_range_spec` piece (the
caller's string).  All three `StringToInt64` calls go through
`TrimLWS(...).data()`, i.e. they parse from the start of the trimmed
sub-piece to the end of the buffer, NUL-truncated. -/
def parse206 (s : List Char) : Bool × Int × Int × Int :=
  let b0 := (s.takeWhile isLWS).length
  let t := trimLWS s
  match t.findIdx? (fun c => c == ' ') with
  | none => (false, -1, -1, -1)
  | some sp =>
    if !lowerEq (trimLWS (t.take sp)) ("bytes".toList) then (false, -1, -1, -1)
    else
      match (t.drop (sp + 1)).findIdx? (fun c => c == '-') with
      | none => (false, -1, -1, -1)
      | some mrel =>
        let minus := sp + 1 + mrel
        match (t.drop (minus + 1)).findIdx? (fun c => c == '/') with
        | none => (false, -1, -1, -1)
        | some srel =>
          let slash := minus + 1 + srel
          let p1 := (t.take minus).drop (sp + 1)
          let d1 := cstr (s.drop (b0 + sp + 1 + (p1.takeWhile isLWS).length))
          match simpleAtoi64 d1 with
          | none => (false, -1, -1, -1)
          | some a =>
            if a < 0 then (false, -1, -1, -1)
            else
              let p2 := (t.take slash).drop (minus + 1)
              let d2 := cstr (s.drop (b0 + minus + 1 + (p2.takeWhile isLWS).length))
              match simpleAtoi64 d2 with
              | none => (false, -1, -1, -1)
              | some b =>
                if b < a then (false, -1, -1, -1)
                else
                  let p3 := t.drop (slash + 1)
                  let d3 := cstr (s.drop (b0 + slash + 1 + (p3.takeWhile isLWS).length))
                  match simpleAtoi64 d3 with
                  | none => (false, -1, -1, -1)
                  | some c =>
                    if c ≤ b then (false, -1, -1, -1) else (true, a, b, c)

/-! ### ParseAcceptEncoding (http_util.cc:902) -/

/-- `std::set`-style insertion into the model's encoding set (membership is
all the code observes; insertion order of the list is first-insertion). -/
def setInsert (l : List (List Char)) (x : List Char) : List (List Char) :=
  if x ∈ l then l else l ++ [x]

/-- One loop iteration of `ParseAcceptEncoding` over a raw comma token:
`none` = hard failure of the whole parse, `some none` = entry silently
dropped (q=0), `some (some e)` = encoding `e` accepted. -/
def aeStep (tok : List Char) : Option (Option (List Char)) :=
  let entry := trimLWS tok
  match entry.findIdx? (fun c => c == ';') with
  | none =>
    if entry.any isLWS then none else some (some (entry.map toLowerC))
  | some sc =>
    let encoding := trimLWS (entry.take sc)
    if encoding.any isLWS then none
    else
      let params := trimLWS (entry.drop (sc + 1))
      match params.findIdx? (fun c => c == '=') with
      | none => none
      | some eqp =>
        let pname := trimLWS (params.take eqp)
        if !lowerEq pname ("q".toList) then none
        else
          let qv := trimLWS (params.drop (eqp + 1))
          if qv.isEmpty then none
          else if qv.headD ' ' = '1' then
            if lowerEq qv (("1.000".toList).take qv.length) then
              some (some (encoding.map toLowerC))
            else none
          else if qv.headD ' ' ≠ '0' then none
          else if qv.length = 1 then some none
          else if qv.length ≤ 2 ∨ 5 < qv.length then none
          else if (qv.drop 1).headD ' ' ≠ '.' then none
          else if !(qv.drop 2).all isDigitA then none
          else if (qv.drop 2).any (fun c => c != '0') then
            some (some (encoding.map toLowerC))
          else some none

/-- The tokenizer loop of `ParseAcceptEncoding`. -/
def aeLoop : List (List Char) → List (List Char) → Option (List (List Char))
  | [], acc => some acc
  | tok :: rest, acc =>
    match aeStep tok with
    | none => none
    | some none => aeLoop rest acc
    | some (some e) => aeLoop rest (setInsert acc e)

/-- `HttpUtil::ParseAcceptEncoding` (http_util.cc:902): reject embedded
quotes, iterate comma tokens, then apply the empty-set default, the
`identity` addition, and the gzip/compress mirroring. -/
def parseAcceptEncoding (s : List Char) : Option (List (List Char)) :=
  if s.any isQuoteC then none
  else
    match aeLoop (splitDelims [','] s) [] with
    | none => none
    | some acc =>
      if acc.isEmpty then some [['*']]
      else
        let a1 := setInsert acc ("identity".toList)
        let a2 := if ("gzip".toList) ∈ a1 then setInsert a1 ("x-gzip".toList) else a1
        let a3 := if ("x-gzip".toList) ∈ a2 then setInsert a2 ("gzip".toList) else a2
        let a4 :=
          if ("compress".toList) ∈ a3 then setInsert a3 ("x-compress".toList) else a3
        let a5 :=
          if ("x-compress".toList) ∈ a4 then setInsert a4 ("compress".toList) else a4
        some a5

/-! ### ExpandLanguageList (http_util.cc:655) -/

/-- `gurl_base::SplitString(input, sep, TRIM_WHITESPACE, SPLIT_WANT_ALL)`:
empty input gives no pieces; otherwise split at every separator occurrence
(keeping empty pieces) and trim ASCII whitespace from each piece. -/
def splitTrimAll (delim : Char) (s : List Char) : List (List Char) :=
  if s.isEmpty then []
  else (s.splitOn delim).map
    (fun p => ((p.dropWhile isSpaceA).reverse.dropWhile isSpaceA).reverse)

/-- `GetBaseLanguageCode` (http_util.cc:65): first piece of the `-`-split,
or empty. -/
def getBaseLanguageCode (l : List Char) : List Char :=
  match splitTrimAll '-' l with
  | [] => []
  | t :: _ => t

/-- `AcceptLanguageBuilder::AddLanguageCode` (http_util.cc:42): skip
duplicates, separate with a comma unless the string built so far is empty.
State is (built string, seen set). -/
def albAdd (st : List Char × List (List Char)) (lang : List Char) :
    List Char × List (List Char) :=
  if lang ∈ st.2 then st
  else ((if st.1.isEmpty then lang else st.1 ++ ',' :: lang), st.2 ++ [lang])

/-- The look-ahead loop of `ExpandLanguageList` (http_util.cc:662-673):
after each language, add its base language exactly when there is no next
language or the next language has a different base. -/
def expandGo : List (List Char) → (List Char × List (List Char)) →
    List Char × List (List Char)
  | [], st => st
  | lang :: rest, st =>
    let st1 := albAdd st lang
    let base := getBaseLanguageCode lang
    let st2 :=
      match rest with
      | [] => albAdd st1 base
      | next :: _ =>
        if getBaseLanguageCode next ≠ base then albAdd st1 base else st1
    expandGo rest st2

/-- `HttpUtil::ExpandLanguageList` (http_util.cc:655). -/
def expandLanguageList (s : List Char) : List Char :=
  let langs := splitTrimAll ',' s
  if langs.isEmpty then [] else (expandGo langs ([], [])).1

/-! ### HeadersIterator (http_util.cc:740) -/

/-- The per-line body of `HeadersIterator::GetNext` (http_util.cc:747):
skip a line with no colon, an empty name, a name starting with LWS, or a
non-token name; otherwise yield the trimmed name and trimmed value. -/
def parseHeaderLine (t : List Char) : Option (List Char × List Char) :=
  match t.findIdx? (fun c => c == ':') with
  | none => none
  | some k =>
    if k = 0 then none
    else if isLWS (t.headD ' ') then none
    else
      let name := trimLWS (t.take k)
      if !isToken name then none
      else some (name, trimLWS (t.drop (k + 1)))

/-- All pairs yielded by repeatedly calling `HeadersIterator::GetNext` over
the given header block with line delimiter `d`, until it returns false. -/
def headersIteratorPairs (s : List Char) (d : Char) :
    List (List Char × List Char) :=
  (splitDelims [d] s).filterMap parseHeaderLine

/-! ### AssembleRawHeaders (http_util.cc:605) -/

/-- `HttpUtil::LocateStartOfStatusLine` (http_util.cc:526): the first offset
`i ≤ min(len-4, 4)` at which "http" occurs case-insensitively. -/
def locateStartOfStatusLine (s : List Char) : Option Nat :=
  if 4 ≤ s.length then
    (List.range (min (s.length - 4) 4 + 1)).find?
      (fun i => lowerEq ((s.drop i).take 4) ("http".toList))
  else none

/-- Status-line terminator characters. -/
def isCRLF (c : Char) : Bool := c == '\r' || c == '\n'

/-- `IsLineSegmentContinuable` (http_util.cc:575): non-empty, has a colon,
name before the colon non-empty and not starting with LWS. -/
def isLineSegmentContinuable (l : List Char) : Bool :=
  match l.findIdx? (fun c => c == ':') with
  | none => false
  | some k => if k = 0 then false else !isLWS (l.headD ' ')

/-- The header-line loop of `AssembleRawHeaders` (http_util.cc:626-637):
each token either continues the previous logical line (joined by a single
space, leading LWS stripped) or starts a new `\n`-terminated line. -/
def assembleLines : List (List Char) → Bool → List Char
  | [], _ => []
  | line :: rest, prev =>
    if prev && isLWS (line.headD ' ') then
      (' ' :: line.dropWhile isLWS) ++ assembleLines rest prev
    else
      ('\n' :: line) ++ assembleLines rest (isLineSegmentContinuable line)

/-- Slop skipping (http_util.cc:610-613): drop everything before the first
"http" occurrence when one is found near the start. -/
def slopSkipped (input : List Char) : List Char :=
  match locateStartOfStatusLine input with
  | some i => input.drop i
  | none => input

/-- The status line (http_util.cc:615-616): everything up to the first CR or
LF (`FindStatusLineEnd`). -/
def statusPart (input : List Char) : List Char :=
  (slopSkipped input).takeWhile (fun c => !isCRLF c)

/-- The folded header lines (http_util.cc:622-637): the remainder after the
status line, tokenized on CR/LF runs and folded by the continuation loop. -/
def linesPart (input : List Char) : List Char :=
  assembleLines
    (splitDelims ['\r', '\n'] ((slopSkipped input).dropWhile (fun c => !isCRLF c)))
    false

/-- The assembled string before NUL-stripping and delimiter substitution
(http_util.cc:605-638): status line, folded lines, and the final "\n\n". -/
def rawAssembled (input : List Char) : List Char :=
  statusPart input ++ (linesPart input ++ ['\n', '\n'])

/-- The delimiter substitution of http_util.cc:643. -/
def nlToNul (c : Char) : Char := if c = '\n' then '\x00' else c

/-- `HttpUtil::AssembleRawHeaders` (http_util.cc:605): assemble, erase every
NUL already present, then replace each `\n` with NUL. -/
def assembleRawHeaders (input : List Char) : List Char :=
  ((rawAssembled input).filter (fun c => c != '\x00')).map nlToNul

/-- Count of consecutive NUL bytes at the end of a string. -/
def leadingNulsRev : List Char → Nat
  | [] => 0
  | c :: cs => if c = '\x00' then leadingNulsRev cs + 1 else 0

/-- Length of the trailing run of NUL bytes. -/
def trailingNuls (l : List Char) : Nat := leadingNulsRev l.reverse

/-! ### NameValuePairsIterator (http_util.cc:809) -/

/-- The mutable state of a `NameValuePairsIterator`: the remaining trimmed
tokens of the underlying `ValuesIterator`, the `valid_` flag, the two
constructor modes, and the output fields of the last `GetNext`. -/
structure NVPIter where
  toks : List (List Char)
  valid : Bool
  strictQ : Bool
  valuesOptional : Bool
  name : List Char := []
  value : List Char := []
  valueIsQuoted : Bool := false
  unquotedValue : List Char := []

/-- Constructor (http_util.cc:809): `valid_` starts true; the property list
is split quote-aware on the delimiter. -/
def nvpInit (s : List Char) (delim : Char) (valuesOptional strictQ : Bool) :
    NVPIter :=
  { toks := vTokensPlain delim s, valid := true, strictQ := strictQ,
    valuesOptional := valuesOptional }

/-- `NameValuePairsIterator::GetNext` (http_util.cc:846).  Note that the
code does not consult `valid_` on entry: it only ever assigns it false. -/
def nvpGetNext (st : NVPIter) : Bool × NVPIter :=
  match st.toks with
  | [] => (false, st)
  | t :: rest =>
    let st1 := { st with
                 toks := rest, value := t, name := ([] : List Char)
                 valueIsQuoted := false, unquotedValue := [] }
    match t.findIdx? (fun c => c == '=') with
    | none =>
      if !st.valuesOptional then (false, { st1 with valid := false })
      else (true, { st1 with name := trimLWS t, value := [] })
    | some k =>
      if k = 0 then (false, { st1 with valid := false })
      else if (t.take k).any isQuoteC then (false, { st1 with valid := false })
      else
        let name := trimLWS (t.take k)
        let v := trimLWS (t.drop (k + 1))
        let st2 := { st1 with name := name, value := v }
        if v.isEmpty then (false, { st2 with valid := false })
        else if isQuoteC (v.headD ' ') then
          if st.strictQ then
            match strictUnquote v with
            | none => (false, { st2 with valid := false })
            | some u =>
              (true, { st2 with valueIsQuoted := true, unquotedValue := u })
          else
            if v.headD ' ' ≠ v.getLastD ' ' ∨ v.length = 1 then
              (true, { st2 with value := v.drop 1 })
            else
              (true, { st2 with valueIsQuoted := true, unquotedValue := unquote v })
        else (true, st2)

/-! ## Theorems -/

/-- Claim C2 (status: code_bug).  Evaluation of `ParseRangeHeader` on the
claim's inputs as the code actually computes them: because
`HttpUtil::StringToInt64` parses from `StringPiece::data()` to the end of
the buffer, `"bytes=0-499,500-999"` fails (the first number parse sees
"0-499,500-999"), and `"bytes=-500"` succeeds but records suffix −500 (the
last-byte parse reads `first_byte_pos.data()`, which points at the "-").
`"bytes=500"` fails as the claim says (no '-'). -/
theorem parseRangeHeader_claim_inputs :
    parseRangeHeader ("bytes=0-499,500-999".toList) [] = (false, []) ∧
    parseRangeHeader ("bytes=-500".toList) [] =
      (true, [{ suffix := some (-500) }]) ∧
    parseRangeHeader ("bytes=500".toList) [] = (false, []) := by
  decide

/-- Claim C4 (status: code_bug).  `ParseContentRangeHeaderFor206` on the
claim's inputs: the good header `"bytes 0-499/1234"` is rejected (the first
`StringToInt64` parses "0-499/1234" because of the `.data()` suffix bug) and
all outputs are −1; `"bytes */1234"` is rejected as the claim says. -/
theorem parse206_claim_inputs :
    parse206 ("bytes 0-499/1234".toList) = (false, -1, -1, -1) ∧
    parse206 ("bytes */1234".toList) = (false, -1, -1, -1) := by
  decide

/-- Claim C7, counterexample: the code emits the base language after the
last member of a family (look-ahead rule), so `ExpandLanguageList`
on "en-US,en-GB" is "en-US,en-GB,en", not the claimed "en-US,en,en-GB". -/
theorem expandLanguageList_enGB_counterexample :
    expandLanguageList ("en-US,en-GB".toList) ≠ ("en-US,en,en-GB".toList) := by
  decide

/-- Claim C7 as amended: `ExpandLanguageList("en-US,fr")` is "en-US,en,fr",
and `ExpandLanguageList("en-US,en-GB")` is "en-US,en-GB,en" — each language
is emitted and, whenever the next listed language does not share its base
subtag (also at the end of the list), the base subtag follows, deduplicated
in first-seen order. -/
theorem expandLanguageList_eval :
    expandLanguageList ("en-US,fr".toList) = ("en-US,en,fr".toList) ∧
    expandLanguageList ("en-US,en-GB".toList) = ("en-US,en-GB,en".toList) := by
  decide

/-- Claim C8 (status: confirmed).  `ParseAcceptEncoding("gzip;q=0, identity")`
succeeds with result set exactly {"identity"} — it contains "identity" and
neither "gzip" nor "x-gzip" (the q=0 entry is silently dropped) — and
`ParseAcceptEncoding("")` succeeds with result set exactly {"*"}. -/
theorem parseAcceptEncoding_claim_inputs :
    parseAcceptEncoding ("gzip;q=0, identity".toList) =
      some [("identity".toList)] ∧
    ("identity".toList) ∈ (parseAcceptEncoding ("gzip;q=0, identity".toList)).getD [] ∧
    ("gzip".toList) ∉ (parseAcceptEncoding ("gzip;q=0, identity".toList)).getD [] ∧
    ("x-gzip".toList) ∉ (parseAcceptEncoding ("gzip;q=0, identity".toList)).getD [] ∧
    parseAcceptEncoding [] = some [['*']] := by
  decide

/-- Claim C9 (status: confirmed).  Iterating `HeadersIterator` over
"Name: Value\0Bad Line\0Good: X\0\0" with NUL as the line delimiter yields
exactly ("Name","Value") then ("Good","X"): the colon-less middle line is
skipped, and after the second pair `GetNext` returns false (the yielded list
is exhausted). -/
theorem headersIterator_claim_input :
    headersIteratorPairs ("Name: Value\x00Bad Line\x00Good: X\x00\x00".toList) '\x00' =
      [(("Name".toList), ("Value".toList)), (("Good".toList), ("X".toList))] := by
  decide

/-- Claim C1, counterexample: with delimiter ';' and values REQUIRED, the
input "x; a=b" makes the first `GetNext` fail (no '=' in "x", so `valid_`
becomes false), yet the very next `GetNext` call returns true and yields the
pair a=b — the iterator does recover, contradicting "every subsequent call
reports failure". -/
theorem nvpIterator_recovers_counterexample :
    (nvpGetNext (nvpInit ("x; a=b".toList) ';' false false)).1 = false ∧
    (nvpGetNext (nvpInit ("x; a=b".toList) ';' false false)).2.valid = false ∧
    (nvpGetNext (nvpGetNext (nvpInit ("x; a=b".toList) ';' false false)).2).1 = true := by
  decide

/-- Claim C3, counterexample: on the input "a\n\x00" the assembled output is
"a\0\0\0", which ends in a run of three delimiter bytes, not exactly two
(the input NUL is erased after the final "\n\n" was appended, merging an
empty line into the terminator run). -/
theorem assembleRawHeaders_three_nuls_counterexample :
    assembleRawHeaders ("a\n\x00".toList) = ['a', '\x00', '\x00', '\x00'] ∧
    trailingNuls (assembleRawHeaders ("a\n\x00".toList)) ≠ 2 := by
  decide

/-- The strict escape-resolving scan fails exactly when the scanned text has
an unescaped interior quote or ends inside an escape. -/
theorem unquoteScan_strict_none (l : List Char) : ∀ esc : Bool,
    (unquoteScan true l esc = none ↔
      (hasUnescapedInteriorQuote l esc || endsInOpenEscape l esc) = true) := by
  induction l with
  | nil =>
    intro esc
    cases esc <;>
      simp [unquoteScan, hasUnescapedInteriorQuote, endsInOpenEscape]
  | cons c cs ih =>
    intro esc
    cases esc with
    | true =>
      simp [unquoteScan, hasUnescapedInteriorQuote, endsInOpenEscape, ih,
        Option.map_eq_none']
    | false =>
      by_cases hc : c = '\\'
      · subst hc
        simp [unquoteScan, hasUnescapedInteriorQuote, endsInOpenEscape, ih]
      · by_cases hq : isQuoteC c
        · simp [unquoteScan, hasUnescapedInteriorQuote, endsInOpenEscape, hc, hq]
        · simp [unquoteScan, hasUnescapedInteriorQuote, endsInOpenEscape, hc, hq,
            ih, Option.map_eq_none']

/-- Claim C5 (status: confirmed).  `Unquote` is total (it returns a string
for every input) and falls back to the identity whenever the input is not a
properly quoted string (whenever the underlying `UnquoteImpl` fails); and
`StrictUnquote` fails exactly when the input is empty, does not start with a
quote, lacks a matching terminal quote, contains an unescaped interior
quote, or ends on an unresolved backslash escape. -/
theorem unquote_total_strictUnquote_fails_iff : ∀ s : List Char,
    (unquoteImpl false s = none → unquote s = s) ∧
    (strictUnquote s = none ↔ specStrictUnquoteFails s = true) := by
  intro s
  constructor
  · intro h; simp [unquote, h]
  · unfold strictUnquote unquoteImpl specStrictUnquoteFails
    simp only [Bool.or_eq_true, bne_iff_ne, ne_eq, decide_eq_true_eq]
    split_ifs with h1 h2 h3 h4 <;>
      first
        | exact iff_of_true rfl (by tauto)
        | (rw [unquoteScan_strict_none, Bool.or_eq_true]; tauto)

/-- Claim C5, witness at the concrete unquoted input "abc": `UnquoteImpl`
fails on it and `Unquote` returns it unchanged. -/
theorem unquote_total_witness :
    unquoteImpl false ("abc".toList) = none ∧
    unquote ("abc".toList) = ("abc".toList) :=
  ⟨by decide, (unquote_total_strictUnquote_fails_iff ("abc".toList)).1 (by decide)⟩

/-- The lenient scan undoes the `Quote` escaping loop exactly. -/
theorem unquoteScan_escapeQ (s : List Char) :
    unquoteScan false (escapeQ s) false = some s := by
  induction s with
  | nil => rfl
  | cons c cs ih =>
    by_cases h : c = '"' ∨ c = '\\'
    · have hq : ¬('"' = '\\' ∧ ¬(true : Bool) = true) := by simp
      simp only [escapeQ, h, if_pos]
      simp [unquoteScan, ih]
    · simp [escapeQ, h, unquoteScan, ih]
      intro hc
      exact absurd (Or.inr hc) h

/-- `Unquote` is a left inverse of `Quote`. -/
theorem unquote_quote (s : List Char) : unquote (quote s) = s := by
  have himpl : unquoteImpl false (quote s) = some s := by
    unfold unquoteImpl quote
    have h3 : ¬ ('"' :: (escapeQ s ++ ['"'])).length < 2 := by
      simp [List.length_append]
    have h4 : ('"' :: (escapeQ s ++ ['"'])).getLast? = some '"' := by
      rw [← List.cons_append, List.getLast?_concat]
    have h5 : (('"' :: (escapeQ s ++ ['"'])).drop 1).dropLast = escapeQ s := by
      simp
    simp [h3, h4, h5, unquoteScan_escapeQ]
  simp [unquote, himpl]

/-- Claim C6 (status: confirmed).  For every string without embedded NUL, CR
or LF, `Quote(Unquote(Quote(s))) = Quote(s)` (in fact `Unquote` inverts
`Quote` exactly, so this holds for all strings). -/
theorem quote_unquote_quote (s : List Char) (_h0 : '\x00' ∉ s)
    (_hr : '\r' ∉ s) (_hn : '\n' ∉ s) :
    quote (unquote (quote s)) = quote s := by
  rw [unquote_quote]

/-- Claim C6, witness at the concrete input "a\"b\\c". -/
theorem quote_unquote_quote_witness :
    quote (unquote (quote ("a\"b\\c".toList))) = quote ("a\"b\\c".toList) :=
  quote_unquote_quote ("a\"b\\c".toList) (by decide) (by decide) (by decide)

/-- Claim C1 as amended: the `valid_` flag is monotone — once a failed
`GetNext` has set it false, no later `GetNext` call ever resets it to true
(the code only ever assigns it false).  `GetNext` itself, however, can still
return true for a later well-formed pair, as the counterexample shows. -/
theorem nvp_valid_monotone (st : NVPIter) (h : st.valid = false) :
    (nvpGetNext st).2.valid = false := by
  unfold nvpGetNext
  rcases ht : st.toks with _ | ⟨t, rest⟩
  · simpa using h
  · dsimp only
    repeat' split
    all_goals first | exact h | rfl

/-- Claim C1, witness: a concrete already-invalid iterator state stays
invalid across the next `GetNext`. -/
theorem nvp_valid_monotone_witness :
    (nvpGetNext { toks := [("a=b".toList)], valid := false, strictQ := false,
                  valuesOptional := false : NVPIter }).2.valid = false :=
  nvp_valid_monotone _ rfl

/-- Appending to the caller's vector commutes with the range loop: the
ranges appended by the loop do not depend on what was already there. -/
theorem rangesLoop_append (ts : List (List Char × List Char)) :
    ∀ a b : List HttpByteRange,
      (rangesLoop ts (a ++ b)).2 = a ++ (rangesLoop ts b).2 := by
  induction ts with
  | nil => intro a b; simp [rangesLoop]
  | cons t ts ih =>
    intro a b
    unfold rangesLoop
    rcases parseOneRange t.1 t.2 with _ | r
    · simp
    · dsimp only
      split
      · rw [List.append_assoc]
        exact ih a (b ++ [r])
      · simp

/-- When the range loop reports success, the final vector is non-empty. -/
theorem rangesLoop_true_ne_nil (ts : List (List Char × List Char)) :
    ∀ acc : List HttpByteRange,
      (rangesLoop ts acc).1 = true → (rangesLoop ts acc).2 ≠ [] := by
  induction ts with
  | nil =>
    intro acc h
    unfold rangesLoop at h ⊢
    simpa using h
  | cons t ts ih =>
    intro acc h
    unfold rangesLoop at h ⊢
    cases hp : parseOneRange t.1 t.2 with
    | none => simp only [hp] at h; simp at h
    | some r =>
      simp only [hp] at h ⊢
      by_cases hv : r.isValid = true
      · rw [if_pos hv] at h ⊢
        exact ih (acc ++ [r]) h
      · rw [if_neg hv] at h
        simp at h

/-- Claim C10 (status: confirmed).  `ParseRangeHeader` appends to the
caller-supplied vector without clearing it (the final vector is always the
initial vector followed by the ranges the call itself parsed, so on a
failing call the ranges parsed before the failure remain appended); success
requires the vector to be non-empty at the end of the call; and on
`"bytes="` — a specifier yielding zero ranges — a call with an already
non-empty vector returns true. -/
theorem parseRangeHeader_append_semantics :
    ∀ (s : List Char) (init : List HttpByteRange),
      (parseRangeHeader s init).2 = init ++ (parseRangeHeader s []).2 ∧
      ((parseRangeHeader s init).1 = true → (parseRangeHeader s init).2 ≠ []) ∧
      (init ≠ [] → (parseRangeHeader ("bytes=".toList) init).1 = true) := by
  intro s init
  refine ⟨?_, ?_, ?_⟩
  · unfold parseRangeHeader
    rcases s.findIdx? (fun c => c == '=') with _ | eq
    · simp
    · dsimp only
      split
      · have := rangesLoop_append (vTokens ',' (s.drop (eq + 1))) init []
        simpa using this
      · simp
  · unfold parseRangeHeader
    rcases s.findIdx? (fun c => c == '=') with _ | eq
    · simp
    · dsimp only
      split
      · exact rangesLoop_true_ne_nil _ init
      · simp
  · intro h
    have hred : parseRangeHeader ("bytes=".toList) init = (!init.isEmpty, init) := rfl
    rw [hred]
    simpa using h

/-- Claim C10, witness at the concrete call `ParseRangeHeader("bytes=")` on
a vector already holding one range: the vector is returned unchanged (equal
to itself appended with the zero ranges the specifier yields), it is
non-empty, and the call returns true. -/
theorem parseRangeHeader_append_semantics_witness :
    (parseRangeHeader ("bytes=".toList) [{ suffix := some 5 }]).2 =
      [{ suffix := some 5 }] ++ (parseRangeHeader ("bytes=".toList) []).2 ∧
    (parseRangeHeader ("bytes=".toList) [{ suffix := some 5 }]).2 ≠ [] ∧
    (parseRangeHeader ("bytes=".toList) [{ suffix := some 5 }]).1 = true :=
  ⟨(parseRangeHeader_append_semantics ("bytes=".toList) [{ suffix := some 5 }]).1,
   (parseRangeHeader_append_semantics ("bytes=".toList) [{ suffix := some 5 }]).2.1
     (by decide),
   (parseRangeHeader_append_semantics ("bytes=".toList) [{ suffix := some 5 }]).2.2
     (by decide)⟩

/-- Characters of tokenizer output come from the input (or the carried
accumulator) and are never delimiter characters. -/
theorem mem_splitDelimsGo {ds : List Char} :
    ∀ (l cur t : List Char), t ∈ splitDelimsGo ds l cur →
      ∀ c : Char, c ∈ t → c ∈ cur ∨ (c ∈ l ∧ c ∉ ds) := by
  intro l
  induction l with
  | nil =>
    intro cur t ht c hc
    by_cases hcur : cur = []
    · simp [splitDelimsGo, hcur] at ht
    · simp only [splitDelimsGo, if_neg hcur, List.mem_singleton] at ht
      subst ht
      exact Or.inl (List.mem_reverse.mp hc)
  | cons a as ih =>
    intro cur t ht c hc
    by_cases had : a ∈ ds
    · by_cases hcur : cur = []
      · simp only [splitDelimsGo, if_pos had, if_pos hcur] at ht
        rcases ih [] t ht c hc with h | h
        · exact absurd h (List.not_mem_nil c)
        · exact Or.inr ⟨List.mem_cons_of_mem _ h.1, h.2⟩
      · simp only [splitDelimsGo, if_pos had, if_neg hcur, List.mem_cons] at ht
        rcases ht with rfl | ht
        · exact Or.inl (List.mem_reverse.mp hc)
        · rcases ih [] t ht c hc with h | h
          · exact absurd h (List.not_mem_nil c)
          · exact Or.inr ⟨List.mem_cons_of_mem _ h.1, h.2⟩
    · simp only [splitDelimsGo, if_neg had] at ht
      rcases ih (a :: cur) t ht c hc with h | h
      · rcases List.mem_cons.mp h with rfl | h
        · exact Or.inr ⟨List.mem_cons_self _ _, had⟩
        · exact Or.inl h
      · exact Or.inr ⟨List.mem_cons_of_mem _ h.1, h.2⟩

/-- Tokenizer output tokens are never empty. -/
theorem ne_nil_of_mem_splitDelimsGo {ds : List Char} :
    ∀ (l cur t : List Char), t ∈ splitDelimsGo ds l cur → t ≠ [] := by
  intro l
  induction l with
  | nil =>
    intro cur t ht
    by_cases hcur : cur = []
    · simp [splitDelimsGo, hcur] at ht
    · simp only [splitDelimsGo, if_neg hcur, List.mem_singleton] at ht
      subst ht
      simpa using hcur
  | cons a as ih =>
    intro cur t ht
    by_cases had : a ∈ ds
    · by_cases hcur : cur = []
      · simp only [splitDelimsGo, if_pos had, if_pos hcur] at ht
        exact ih [] t ht
      · simp only [splitDelimsGo, if_pos had, if_neg hcur, List.mem_cons] at ht
        rcases ht with rfl | ht
        · simpa using hcur
        · exact ih [] t ht
    · simp only [splitDelimsGo, if_neg had] at ht
      exact ih (a :: cur) t ht

/-- Characters of `splitDelims` tokens: in the input and not delimiters. -/
theorem mem_splitDelims {ds l t : List Char} (ht : t ∈ splitDelims ds l)
    {c : Char} (hc : c ∈ t) : c ∈ l ∧ c ∉ ds := by
  rcases mem_splitDelimsGo l [] t ht c hc with h | h
  · exact absurd h (List.not_mem_nil c)
  · exact h

/-- Every character of the folded line block is a line feed, a continuation
space, or a character of one of the tokens. -/
theorem mem_assembleLines :
    ∀ (ts : List (List Char)) (prev : Bool) (c : Char),
      c ∈ assembleLines ts prev →
      c = '\n' ∨ c = ' ' ∨ ∃ t, t ∈ ts ∧ c ∈ t := by
  intro ts
  induction ts with
  | nil => intro prev c hc; simp [assembleLines] at hc
  | cons line rest ih =>
    intro prev c hc
    unfold assembleLines at hc
    split at hc
    · rcases List.mem_append.mp hc with h | h
      · rcases List.mem_cons.mp h with rfl | h
        · exact Or.inr (Or.inl rfl)
        · exact Or.inr (Or.inr
            ⟨line, List.mem_cons_self _ _, List.dropWhile_subset _ h⟩)
      · rcases ih prev c h with h | h | ⟨t, ht, hct⟩
        · exact Or.inl h
        · exact Or.inr (Or.inl h)
        · exact Or.inr (Or.inr ⟨t, List.mem_cons_of_mem _ ht, hct⟩)
    · rcases List.mem_append.mp hc with h | h
      · rcases List.mem_cons.mp h with rfl | h
        · exact Or.inl rfl
        · exact Or.inr (Or.inr ⟨line, List.mem_cons_self _ _, h⟩)
      · rcases ih (isLineSegmentContinuable line) c h with h | h | ⟨t, ht, hct⟩
        · exact Or.inl h
        · exact Or.inr (Or.inl h)
        · exact Or.inr (Or.inr ⟨t, List.mem_cons_of_mem _ ht, hct⟩)

/-- When every token is non-empty and free of line feeds, the folded line
block never ends with a line feed. -/
theorem assembleLines_getLast_ne_nl :
    ∀ (ts : List (List Char)) (prev : Bool),
      (∀ t ∈ ts, t ≠ [] ∧ '\n' ∉ t) →
      (assembleLines ts prev).getLast? ≠ some '\n' := by
  intro ts
  induction ts with
  | nil => intro prev hts; simp [assembleLines]
  | cons line rest ih =>
    intro prev hts
    have hline := hts line (List.mem_cons_self _ _)
    have hrest : ∀ t ∈ rest, t ≠ [] ∧ '\n' ∉ t :=
      fun t ht => hts t (List.mem_cons_of_mem _ ht)
    unfold assembleLines
    split <;>
    · rw [List.getLast?_append]
      cases hr : (assembleLines rest _).getLast? with
      | some x =>
        intro hx
        apply ih _ hrest
        rw [hr]
        simpa using hx
      | none =>
        simp only [Option.none_or]
        first
          | -- continuation chunk: ' ' followed by the line with leading LWS gone
            (cases hd : line.dropWhile isLWS with
            | nil => simp
            | cons a as =>
              rw [List.getLast?_cons_cons]
              intro hx
              have hmem : '\n' ∈ line := by
                refine List.dropWhile_subset isLWS ?_
                rw [hd]
                exact List.mem_of_getLast?_eq_some hx
              exact hline.2 hmem)
          | -- fresh line chunk: '\n' followed by the non-empty token
            (cases hl : line with
            | nil => exact absurd hl hline.1
            | cons b bs =>
              rw [List.getLast?_cons_cons]
              intro hx
              have hmem : '\n' ∈ line := by
                rw [hl]
                exact List.mem_of_getLast?_eq_some hx
              exact hline.2 hmem)

/-- Slop skipping only removes a prefix. -/
theorem slopSkipped_subset (input : List Char) : slopSkipped input ⊆ input := by
  unfold slopSkipped
  cases locateStartOfStatusLine input with
  | none => exact fun a ha => ha
  | some i => exact List.drop_subset i input

/-- Characters of the copied status line are input characters and are
neither CR nor LF. -/
theorem mem_statusPart {input : List Char} {c : Char}
    (hc : c ∈ statusPart input) : c ∈ input ∧ isCRLF c = false := by
  refine ⟨slopSkipped_subset input (List.takeWhile_subset _ hc), ?_⟩
  have := List.mem_takeWhile_imp hc
  simpa using this

/-- Characters of the folded line block are line feeds, continuation
spaces, or input characters that are neither CR nor LF. -/
theorem mem_linesPart {input : List Char} {c : Char} (hc : c ∈ linesPart input) :
    c = '\n' ∨ c = ' ' ∨ (c ∈ input ∧ c ≠ '\r' ∧ c ≠ '\n') := by
  unfold linesPart at hc
  rcases mem_assembleLines _ false c hc with h | h | ⟨t, ht, hct⟩
  · exact Or.inl h
  · exact Or.inr (Or.inl h)
  · have hm := mem_splitDelims ht hct
    refine Or.inr (Or.inr ⟨?_, ?_, ?_⟩)
    · exact slopSkipped_subset input (List.dropWhile_subset _ hm.1)
    · intro hr; exact hm.2 (by rw [hr]; simp)
    · intro hn; exact hm.2 (by rw [hn]; simp)

/-- CR/LF tokenizer output: tokens are non-empty and free of line feeds. -/
theorem splitCRLF_tokens_ok (x : List Char) :
    ∀ t ∈ splitDelims ['\r', '\n'] x, t ≠ [] ∧ '\n' ∉ t := by
  intro t ht
  refine ⟨ne_nil_of_mem_splitDelimsGo x [] t ht, fun hn => ?_⟩
  exact (mem_splitDelims ht hn).2 (by simp)

/-- `AssembleRawHeaders` decomposed: the NUL-erased, delimiter-substituted
status-plus-lines part followed by the two terminator bytes. -/
theorem assembleRawHeaders_eq (input : List Char) :
    assembleRawHeaders input =
      ((statusPart input ++ linesPart input).filter (fun c => c != '\x00')).map
        nlToNul ++ ['\x00', '\x00'] := by
  unfold assembleRawHeaders rawAssembled
  rw [← List.append_assoc, List.filter_append, List.map_append]
  congr 1

/-- Unfolding step for the leading-NUL counter. -/
theorem leadingNulsRev_cons_nul (l : List Char) :
    leadingNulsRev ('\x00' :: l) = leadingNulsRev l + 1 := by
  simp [leadingNulsRev]

/-- Trailing-NUL count of a string ending in two NULs. -/
theorem trailingNuls_concat_two (Y : List Char) :
    trailingNuls (Y ++ ['\x00', '\x00']) = 2 + leadingNulsRev Y.reverse := by
  unfold trailingNuls
  rw [List.reverse_append]
  show leadingNulsRev ('\x00' :: '\x00' :: Y.reverse) = 2 + leadingNulsRev Y.reverse
  rw [leadingNulsRev_cons_nul, leadingNulsRev_cons_nul]
  omega

/-- With a NUL-free input, the status and line parts contain no NUL. -/
theorem statusLines_no_nul {input : List Char} (h : '\x00' ∉ input) :
    '\x00' ∉ statusPart input ++ linesPart input := by
  intro hmem
  rcases List.mem_append.mp hmem with hs | hl
  · exact h (mem_statusPart hs).1
  · rcases mem_linesPart hl with h1 | h1 | h1
    · exact absurd h1 (by decide)
    · exact absurd h1 (by decide)
    · exact h h1.1

/-- The status and line parts never end with a line feed. -/
theorem statusLines_getLast_ne_nl (input : List Char) :
    (statusPart input ++ linesPart input).getLast? ≠ some '\n' := by
  rw [List.getLast?_append]
  cases hl : (linesPart input).getLast? with
  | some z =>
    rw [Option.or_some]
    intro h
    have hz := assembleLines_getLast_ne_nl
      (splitDelims ['\r', '\n'] ((slopSkipped input).dropWhile (fun c => !isCRLF c)))
      false (splitCRLF_tokens_ok _)
    unfold linesPart at hl
    exact hz (hl.trans h)
  | none =>
    rw [Option.none_or]
    intro h
    have hc := List.mem_of_getLast?_eq_some h
    have := (mem_statusPart hc).2
    simp [isCRLF] at this

/-- Claim C3 as amended (the code violates only the "exactly two" part, and
only when the input itself contains NUL bytes): for every input,
`AssembleRawHeaders` produces a string with no CR and no LF, in which every
NUL is a synthetic line terminator substituted for a line feed (no input NUL
survives: the output is the NUL-substitution image of a NUL-free string),
ending in a run of at least two NUL delimiter bytes — and of exactly two
NUL bytes whenever the input contains no NUL. -/
theorem assembleRawHeaders_invariants : ∀ input : List Char,
    ('\r' ∉ assembleRawHeaders input ∧ '\n' ∉ assembleRawHeaders input) ∧
    (∃ m : List Char, '\x00' ∉ m ∧ assembleRawHeaders input = m.map nlToNul) ∧
    2 ≤ trailingNuls (assembleRawHeaders input) ∧
    ('\x00' ∉ input → trailingNuls (assembleRawHeaders input) = 2) := by
  intro input
  refine ⟨⟨?_, ?_⟩, ?_, ?_, ?_⟩
  · -- no CR anywhere in the output
    intro hmem
    unfold assembleRawHeaders at hmem
    rcases List.mem_map.mp hmem with ⟨d, hd, hmap⟩
    have hdr : d = '\r' := by
      unfold nlToNul at hmap
      by_cases h : d = '\n'
      · rw [if_pos h] at hmap; exact absurd hmap (by decide)
      · rw [if_neg h] at hmap; exact hmap
    subst hdr
    have hraw : '\r' ∈ rawAssembled input := List.mem_of_mem_filter hd
    unfold rawAssembled at hraw
    rcases List.mem_append.mp hraw with h | h
    · have := (mem_statusPart h).2
      simp [isCRLF] at this
    · rcases List.mem_append.mp h with h | h
      · rcases mem_linesPart h with h1 | h1 | h1
        · exact absurd h1 (by decide)
        · exact absurd h1 (by decide)
        · exact h1.2.1 rfl
      · simp at h
  · -- no LF anywhere in the output
    intro hmem
    unfold assembleRawHeaders at hmem
    rcases List.mem_map.mp hmem with ⟨d, _, hmap⟩
    unfold nlToNul at hmap
    by_cases h : d = '\n'
    · rw [if_pos h] at hmap; exact absurd hmap (by decide)
    · rw [if_neg h] at hmap; exact h hmap
  · -- every NUL in the output is synthetic
    refine ⟨(rawAssembled input).filter (fun c => c != '\x00'), ?_, rfl⟩
    intro hmem
    have := (List.mem_filter.mp hmem).2
    simp at this
  · -- at least two trailing NULs, always
    rw [assembleRawHeaders_eq, trailingNuls_concat_two]
    omega
  · -- exactly two trailing NULs for NUL-free input
    intro h0
    rw [assembleRawHeaders_eq, trailingNuls_concat_two]
    have hX : '\x00' ∉ statusPart input ++ linesPart input := statusLines_no_nul h0
    have hfilter : (statusPart input ++ linesPart input).filter
        (fun c => c != '\x00') = statusPart input ++ linesPart input := by
      rw [List.filter_eq_self]
      intro a ha
      simp only [bne_iff_ne, ne_eq]
      intro he
      exact hX (he ▸ ha)
    rw [hfilter]
    have hz : leadingNulsRev
        (((statusPart input ++ linesPart input).map nlToNul).reverse) = 0 := by
      cases hY : ((statusPart input ++ linesPart input).map nlToNul).reverse with
      | nil => rfl
      | cons y ys =>
        have hhead : ((statusPart input ++ linesPart input).map nlToNul).getLast? =
            some y := by
          rw [← List.head?_reverse, hY]
          rfl
        rw [List.getLast?_map] at hhead
        cases hXl : (statusPart input ++ linesPart input).getLast? with
        | none => rw [hXl] at hhead; exact absurd hhead (by simp)
        | some x =>
          rw [hXl, Option.map_some'] at hhead
          have hx_mem : x ∈ statusPart input ++ linesPart input :=
            List.mem_of_getLast?_eq_some hXl
          have hx_ne_nl : x ≠ '\n' := by
            intro he
            exact statusLines_getLast_ne_nl input (by rw [hXl, he])
          have hy : y = nlToNul x := (Option.some_inj.mp hhead).symm
          have hy_ne : y ≠ '\x00' := by
            rw [hy]
            unfold nlToNul
            rw [if_neg hx_ne_nl]
            exact fun he => hX (he ▸ hx_mem)
          unfold leadingNulsRev
          rw [if_neg hy_ne]
    rw [hz]

/-- Claim C3, witness: a NUL-free CRLF response assembles to an output with
no CR/LF, a NUL-substitution image of a NUL-free string, and exactly two
trailing NUL delimiters. -/
theorem assembleRawHeaders_invariants_witness :
    ('\r' ∉ assembleRawHeaders ("HTTP/1.1 200 OK\r\nFoo: bar\r\n\r\n".toList) ∧
     '\n' ∉ assembleRawHeaders ("HTTP/1.1 200 OK\r\nFoo: bar\r\n\r\n".toList)) ∧
    (∃ m : List Char, '\x00' ∉ m ∧
      assembleRawHeaders ("HTTP/1.1 200 OK\r\nFoo: bar\r\n\r\n".toList) =
        m.map nlToNul) ∧
    2 ≤ trailingNuls (assembleRawHeaders ("HTTP/1.1 200 OK\r\nFoo: bar\r\n\r\n".toList)) ∧
    trailingNuls (assembleRawHeaders ("HTTP/1.1 200 OK\r\nFoo: bar\r\n\r\n".toList)) = 2 :=
  ⟨(assembleRawHeaders_invariants _).1,
   (assembleRawHeaders_invariants _).2.1,
   (assembleRawHeaders_invariants _).2.2.1,
   (assembleRawHeaders_invariants _).2.2.2 (by decide)⟩

end HttpParserProof
